import Mathlib

/-
  Verification of the dynamic function-invocation engine interface
  (lldb ClangFunctionCaller).  The repository ships only the interface
  header `ClangFunctionCaller.h`; the layout builder, wrapper-thunk
  compiler and remote invocation driver are declared there and described
  by the design spec, so those operations are modelled from the spec and
  the header's documentation comments, faithfully to their words.  The
  one piece of executable behaviour present in the header itself,
  `ClangFunctionCallerHelper::DeclMap`, is embedded directly from the
  source.
-/

namespace FunctionCallerModel

/-- Modelled from the spec: a Type/Value Descriptor, the externally
supplied description of a value's storage shape (size and alignment in
bytes).  The external type system supplying it is not part of this
repository's sources. -/
structure Descriptor where
  size : Nat
  alignment : Nat
deriving DecidableEq

/-- Round `off` up to the next multiple of `a` (`a = 0` leaves `off`
unchanged).  This is the minimal padding insertion used by standard
aggregate layout rules. -/
def alignUp (off a : Nat) : Nat :=
  if a = 0 then off else ((off + a - 1) / a) * a

/-- One field of the argument struct layout: byte offset, size and
alignment within the flat buffer. -/
structure Field where
  offset : Nat
  size : Nat
  alignment : Nat
deriving DecidableEq

/-- Modelled from the spec: the Argument Struct Layout Builder's field
placement.  Starting at `start`, append one field per descriptor in
declared order, each at the next offset aligned to its own alignment.
Returns the fields and the offset just past the last field. -/
def layoutFields : Nat → List Descriptor → List Field × Nat
  | start, [] => ([], start)
  | start, d :: ds =>
    ({ offset := alignUp start d.alignment, size := d.size,
       alignment := d.alignment } ::
        (layoutFields (alignUp start d.alignment + d.size) ds).1,
     (layoutFields (alignUp start d.alignment + d.size) ds).2)

/-- Modelled from the spec: an ArgumentLayout maps the reserved function
pointer slot, each parameter, and the return-value slot to (offset,
size, alignment) within a single buffer, together with the total buffer
size and the overall alignment (maximum of all fields). -/
structure ArgumentLayout where
  funcPtrField : Field
  paramFields : List Field
  returnField : Field
  totalSize : Nat
  totalAlignment : Nat
deriving DecidableEq

/-- Modelled from the spec: `ComputeLayout(returnDescriptor,
parameterDescriptors[])`.  Reserve the first field for the target
function pointer (pointer-sized, pointer-aligned); append one field per
parameter in declared order, each sized/aligned per its descriptor with
minimal padding; append a final field for the return value sized/aligned
per the return descriptor. -/
def ComputeLayout (ptrSize ptrAlign : Nat) (ret : Descriptor)
    (params : List Descriptor) : ArgumentLayout :=
  { funcPtrField := { offset := 0, size := ptrSize, alignment := ptrAlign }
  , paramFields := (layoutFields ptrSize params).1
  , returnField :=
      { offset := alignUp (layoutFields ptrSize params).2 ret.alignment
      , size := ret.size, alignment := ret.alignment }
  , totalSize :=
      alignUp (layoutFields ptrSize params).2 ret.alignment + ret.size
  , totalAlignment :=
      (params.map Descriptor.alignment).foldr max (max ptrAlign ret.alignment) }

/-- `off` is the smallest offset at or after `start` that is a multiple
of the alignment `a`: the minimal-padding placement. -/
def isMinAlignedOffset (start a off : Nat) : Prop :=
  start ≤ off ∧ a ∣ off ∧ ∀ m, start ≤ m → a ∣ m → off ≤ m

/-- The fields realise the descriptors in declared order, each with the
descriptor's size and alignment, placed at the minimal aligned offset at
or after the end of the previous field. -/
def fieldsWellPlaced : Nat → List Descriptor → List Field → Prop
  | _, [], [] => True
  | start, d :: ds, f :: fs =>
      isMinAlignedOffset start d.alignment f.offset ∧ f.size = d.size ∧
      f.alignment = d.alignment ∧ fieldsWellPlaced (f.offset + f.size) ds fs
  | _, _, _ => False

/-- Sum of the byte sizes of a list of fields. -/
def sumSizes (fs : List Field) : Nat := (fs.map Field.size).sum

/-- Total padding in a field list laid out after position `e`: the gap
before each field's offset, accumulated. -/
def gapsFrom : Nat → List Field → Nat
  | _, [] => 0
  | e, f :: fs => (f.offset - e) + gapsFrom (f.offset + f.size) fs

/-- End position of a field chain started at `start`. -/
def chainEnd : Nat → List Field → Nat
  | start, [] => start
  | _, f :: fs => chainEnd (f.offset + f.size) fs

/-- All fields of a layout in buffer order: function pointer first, then
the parameters in declared order, then the return value. -/
def ArgumentLayout.allFields (L : ArgumentLayout) : List Field :=
  L.funcPtrField :: (L.paramFields ++ [L.returnField])

/-- Spec-level characterisation of a correct layout for the given
signature: the first field is the function pointer at offset 0,
pointer-sized and pointer-aligned; the parameter fields in declared
order and the final return field each sit at the minimal offset
satisfying their own alignment; and the total buffer size is the sum of
all field sizes plus the padding gaps. -/
def layoutCorrect (ptrSize ptrAlign : Nat) (ret : Descriptor)
    (params : List Descriptor) (L : ArgumentLayout) : Prop :=
  L.funcPtrField = { offset := 0, size := ptrSize, alignment := ptrAlign } ∧
  fieldsWellPlaced ptrSize (params ++ [ret]) (L.paramFields ++ [L.returnField]) ∧
  L.totalSize = sumSizes L.allFields + gapsFrom 0 L.allFields

/-- Pointer size in bytes of the modelled 64-bit target. -/
def ptrSize : Nat := 8

/-- Pointer alignment in bytes of the modelled 64-bit target. -/
def ptrAlign : Nat := 8

/-- The invalid-address sentinel (LLDB_INVALID_ADDRESS: all 64 bits set). -/
def LLDB_INVALID_ADDRESS : Nat := 2 ^ 64 - 1

/-- Modelled from the spec: a FunctionSignature is the return-type
descriptor, the ordered parameter descriptors and the target function
address; immutable once the Caller is constructed. -/
structure FunctionSignature where
  returnDesc : Descriptor
  paramDescs : List Descriptor
  functionAddress : Nat
deriving DecidableEq

/-- Modelled from the spec: the Function Caller facade's state — its
fixed signature, whether the wrapper thunk has been compiled, the thunk
address and cached layout once compiled, the argument buffers the engine
owns on the client's behalf, and the running diagnostic error count. -/
structure Caller where
  sig : FunctionSignature
  compiled : Bool
  thunkAddr : Option Nat
  layoutCache : Option ArgumentLayout
  ownedBuffers : List Nat
  diagErrorCount : Nat
deriving DecidableEq

/-- The layout a Caller uses, computed from its fixed signature. -/
def callerLayout (c : Caller) : ArgumentLayout :=
  ComputeLayout ptrSize ptrAlign c.sig.returnDesc c.sig.paramDescs

/-- The pluggable code-generation backend (an external collaborator): for
a signature it produces either a thunk address or a diagnostic count. -/
def CodeGenBackend : Type := FunctionSignature → Except Nat Nat

/-- Modelled from the spec: `CompileFunction(executionContext) ->
errorCount` lazily builds layout + thunk; re-invoking after success is a
no-op returning zero; the number of diagnostics generated is the result
of the call (a total function — there is no exception channel). -/
def CompileFunction (backend : CodeGenBackend) (c : Caller) : Caller × Nat :=
  if c.compiled then (c, 0)
  else
    match backend c.sig with
    | Except.ok addr =>
        ({ c with compiled := true, thunkAddr := some addr,
                  layoutCache := some (callerLayout c) }, 0)
    | Except.error n => ({ c with diagErrorCount := c.diagErrorCount + n }, n)

/-- Modelled from the spec: the Remote Invocation Driver's allocation
state in the target process — which buffer addresses are allocated, and
a bump pointer for fresh regions. -/
structure AllocState where
  allocated : List Nat
  nextAddr : Nat
deriving DecidableEq

/-- Modelled from the spec: `AllocateBuffer(layout) -> address` returns a
fresh region of the requested size and records it as allocated. -/
def allocateBuffer (st : AllocState) (size : Nat) : AllocState × Nat :=
  ({ allocated := st.nextAddr :: st.allocated, nextAddr := st.nextAddr + size + 1 },
   st.nextAddr)

/-- Modelled from the spec: `InsertFunction(executionContext,
argumentBufferAddressInOut)` ensures a compiled thunk and an allocated
buffer exist; the invalid-address sentinel requests a fresh allocation
whose address is returned, while a valid existing address is reused with
no new allocation. -/
def InsertFunction (backend : CodeGenBackend) (c : Caller) (st : AllocState)
    (argsAddr : Nat) : Option (Caller × AllocState × Nat) :=
  if (CompileFunction backend c).2 ≠ 0 then none
  else if argsAddr = LLDB_INVALID_ADDRESS then
    some ((CompileFunction backend c).1,
      (allocateBuffer st (callerLayout (CompileFunction backend c).1).totalSize).1,
      (allocateBuffer st (callerLayout (CompileFunction backend c).1).totalSize).2)
  else some ((CompileFunction backend c).1, st, argsAddr)

/-- Target process memory, byte-addressed. -/
def Memory : Type := Nat → Nat

/-- Write a byte string into memory starting at `addr`. -/
def writeBytes (mem : Memory) (addr : Nat) (bytes : List Nat) : Memory :=
  fun a => if addr ≤ a ∧ a < addr + bytes.length then bytes.getD (a - addr) 0 else mem a

/-- Read `n` bytes of memory starting at `addr`. -/
def readBytes (mem : Memory) (addr n : Nat) : List Nat :=
  (List.range n).map fun i => mem (addr + i)

/-- Write each value's bytes into its corresponding field of the buffer
based at `base`, in declared order. -/
def writeFields (base : Nat) : List Field → List (List Nat) → Memory → Memory
  | [], _, mem => mem
  | _ :: _, [], mem => mem
  | f :: fs, v :: vs, mem => writeFields base fs vs (writeBytes mem (base + f.offset) v)

/-- Each argument value's byte length matches the corresponding layout
field's size (the value's descriptor matches the layout). -/
def valuesMatch : List (List Nat) → List Field → Bool
  | [], [] => true
  | v :: vs, f :: fs => (v.length == f.size) && valuesMatch vs fs
  | _, _ => false

/-- Machine-distinguishable failure kinds (§7 taxonomy, restricted to
the kinds the claims exercise). -/
inductive CallError where
  | ArgumentMismatch
  | ExecutionFaulted
deriving DecidableEq

/-- Modelled from the spec: `WriteFunctionArguments(executionContext,
bufferAddress, values[])` writes argument field values into an existing
buffer; it fails with ArgumentMismatch — before touching memory — if the
number of values does not match the signature's parameter count or a
value's shape mismatches the layout. -/
def WriteFunctionArguments (c : Caller) (mem : Memory) (argsAddr : Nat)
    (values : List (List Nat)) : Memory × Option CallError :=
  if (values.length == c.sig.paramDescs.length) &&
      valuesMatch values (callerLayout c).paramFields then
    (writeFields argsAddr (callerLayout c).paramFields values mem, none)
  else (mem, some CallError.ArgumentMismatch)

/-- Read one argument field of a buffer back (a pure accessor). -/
def readArgumentField (mem : Memory) (argsAddr : Nat) (f : Field) : List Nat :=
  readBytes mem (argsAddr + f.offset) f.size

/-- Modelled from the spec and the header comment: any method taking
arg_addr_ptr can be passed NULL (`none`), and the argument space will be
managed for the client — the engine allocates the buffer itself and
tracks it on the Caller.  A non-null pointer behaves as InsertFunction. -/
def resolveArgAddr (backend : CodeGenBackend) (c : Caller) (st : AllocState) :
    Option Nat → Option (Caller × AllocState × Nat)
  | none =>
    if (CompileFunction backend c).2 ≠ 0 then none
    else
      some ({ (CompileFunction backend c).1 with ownedBuffers :=
          (allocateBuffer st (callerLayout (CompileFunction backend c).1).totalSize).2 ::
            ((CompileFunction backend c).1).ownedBuffers },
        (allocateBuffer st (callerLayout (CompileFunction backend c).1).totalSize).1,
        (allocateBuffer st (callerLayout (CompileFunction backend c).1).totalSize).2)
  | some addr => InsertFunction backend c st addr

/-- Modelled from the spec: destroying a Caller frees every argument
buffer the engine owns on the client's behalf (engine-owned buffers are
freed with the Caller). -/
def destroyCaller (c : Caller) (st : AllocState) : AllocState :=
  { st with allocated := st.allocated.filter (fun a => ! c.ownedBuffers.contains a) }

/-- One invocation's outcome (§4.3 failure taxonomy, restricted to the
kinds the claims exercise). -/
inductive InvocationResult where
  | completed (retBytes : List Nat)
  | executionFaulted
deriving DecidableEq

/-- The target process's code as the execution subsystem exposes it: an
address either holds code that raises a hardware fault (`none`) or
computes a return value from the unpacked argument values. -/
def TargetCode : Type := Nat → Option (List (List Nat) → List Nat)

/-- Modelled from the spec: ExecuteFunction drives the compiled thunk
against an invocation buffer: the thunk unpacks the argument fields,
calls the code at the target address, and stores the return value into
the buffer's return field.  A target address whose code raises a
hardware fault yields executionFaulted and changes nothing. -/
def ExecuteFunction (target : TargetCode) (c : Caller) (mem : Memory)
    (argsAddr funcAddr : Nat) : Caller × Memory × InvocationResult :=
  match target funcAddr with
  | none => (c, mem, InvocationResult.executionFaulted)
  | some f =>
      (c,
       writeBytes mem (argsAddr + (callerLayout c).returnField.offset)
         (f ((callerLayout c).paramFields.map
            (fun fld => readBytes mem (argsAddr + fld.offset) fld.size))),
       InvocationResult.completed
         (f ((callerLayout c).paramFields.map
            (fun fld => readBytes mem (argsAddr + fld.offset) fld.size))))

/-- An interleaving of two threads' atomic operations: `zs` is a merge
of `xs` and `ys` preserving each thread's order. -/
inductive Interleaving : List (Memory → Memory) → List (Memory → Memory) →
    List (Memory → Memory) → Prop
  | nil : Interleaving [] [] []
  | left {x : Memory → Memory} {xs ys zs : List (Memory → Memory)} :
      Interleaving xs ys zs → Interleaving (x :: xs) ys (x :: zs)
  | right {y : Memory → Memory} {xs ys zs : List (Memory → Memory)} :
      Interleaving xs ys zs → Interleaving xs (y :: ys) (y :: zs)

/-- An interleaving of any number of threads' atomic operations: a merge
of all the thread lists preserving each thread's order, built as the
first thread interleaved with a merge of the remaining threads. -/
inductive InterleavingN : List (List (Memory → Memory)) →
    List (Memory → Memory) → Prop
  | nil : InterleavingN [] []
  | cons {t : List (Memory → Memory)} {ts : List (List (Memory → Memory))}
      {w zs : List (Memory → Memory)} :
      InterleavingN ts w → Interleaving t w zs → InterleavingN (t :: ts) zs

/-- Run a list of atomic memory operations, in order. -/
def runOps (ops : List (Memory → Memory)) (mem : Memory) : Memory :=
  ops.foldl (fun m op => op m) mem

/-- Modelled from the spec: the two atomic phases of one invocation on
its own buffer — write the argument fields, then execute the thunk
(which reads the argument fields, applies the target function, and
stores the result into the return field). -/
def invocationOps (c : Caller) (f : List (List Nat) → List Nat) (base : Nat)
    (vs : List (List Nat)) : List (Memory → Memory) :=
  [fun m => writeFields base (callerLayout c).paramFields vs m,
   fun m => writeBytes m (base + (callerLayout c).returnField.offset)
     (f ((callerLayout c).paramFields.map
        (fun fld => readBytes m (base + fld.offset) fld.size)))]

/-- Read an invocation's result out of its buffer's return field. -/
def readInvocationResult (c : Caller) (m : Memory) (base : Nat) : List Nat :=
  readBytes m (base + (callerLayout c).returnField.offset)
    (callerLayout c).returnField.size

/-- An operation confined to region `R`: it writes only inside `R`, and
its effect inside `R` depends only on `R`'s prior contents. -/
def confined (R : Nat → Prop) (op : Memory → Memory) : Prop :=
  (∀ m a, ¬ R a → op m a = m a) ∧
  (∀ m1 m2, (∀ a, R a → m1 a = m2 a) → ∀ a, R a → op m1 a = op m2 a)

/-- The byte region of one invocation buffer. -/
def bufRegion (c : Caller) (base : Nat) : Nat → Prop :=
  fun a => base ≤ a ∧ a < base + (callerLayout c).totalSize

/-- Consecutive fields do not overlap: each begins at or after `start`
and each subsequent field begins at or after the previous field's end. -/
def fieldsDisjointFrom : Nat → List Field → Prop
  | _, [] => True
  | start, f :: fs => start ≤ f.offset ∧ fieldsDisjointFrom (f.offset + f.size) fs

/-- The external declaration-map collaborator; opaque here — only its
presence or absence (NULL) matters to the claims. -/
structure ClangExpressionDeclMap

/-- The type-system helper owned by a ClangFunctionCaller
(ClangFunctionCaller.h, lines 69–98), restricted to the state the claims
mention. -/
structure ClangFunctionCallerHelper where
  m_owner : Caller

/-- Embedded from the source (ClangFunctionCaller.h line 79):
`ClangExpressionDeclMap *DeclMap() override { return NULL; }` — the
object used when resolving external values, NULL meaning everything is
self-contained. -/
def ClangFunctionCallerHelper.DeclMap (_h : ClangFunctionCallerHelper) :
    Option ClangExpressionDeclMap := none

/-- A sample backend that always compiles to a thunk at address 4096. -/
def bk0 : CodeGenBackend := fun _ => Except.ok 4096

/-- A sample signature with an int32-like and a float64-like parameter
and an int32-like return. -/
def sig0 : FunctionSignature :=
  { returnDesc := { size := 4, alignment := 4 }
  , paramDescs := [{ size := 4, alignment := 4 }, { size := 8, alignment := 8 }]
  , functionAddress := 4660 }

/-- A freshly constructed Caller for `sig0`. -/
def caller0 : Caller :=
  { sig := sig0, compiled := false, thunkAddr := none, layoutCache := none,
    ownedBuffers := [], diagErrorCount := 0 }

/-- A sample allocation state. -/
def st0 : AllocState := { allocated := [64], nextAddr := 256 }

/-- All-zero target memory. -/
def mem0 : Memory := fun _ => 0

/-- A sample target: address 7 holds faulting code, every other address
returns a 4-byte zero value. -/
def target0 : TargetCode :=
  fun a => if a = 7 then none else some (fun _ => [0, 0, 0, 0])

/-- A sample one-byte-argument, one-byte-return signature. -/
def sig1 : FunctionSignature :=
  { returnDesc := { size := 1, alignment := 1 }
  , paramDescs := [{ size := 1, alignment := 1 }]
  , functionAddress := 4660 }

/-- A compiled Caller for `sig1`. -/
def caller1 : Caller :=
  { sig := sig1, compiled := true, thunkAddr := some 4096,
    layoutCache := some (ComputeLayout ptrSize ptrAlign sig1.returnDesc sig1.paramDescs),
    ownedBuffers := [], diagErrorCount := 0 }

/-- A sample target behaviour: return the first byte of the first
argument value. -/
def f0 : List (List Nat) → List Nat :=
  fun args => [(args.headD []).headD 0]

theorem le_alignUp (off a : Nat) : off ≤ alignUp off a := by
  unfold alignUp
  by_cases h : a = 0
  · simp [h]
  · simp only [h, if_false]
    have ha : 0 < a := Nat.pos_of_ne_zero h
    rcases Nat.eq_zero_or_pos off with h0 | h0
    · simp [h0]
    · have hoff : off + a - 1 = (off - 1) + a := by omega
      have hdiv : (off + a - 1) / a = (off - 1) / a + 1 := by
        rw [hoff, Nat.add_div_right _ ha]
      have hq : (off - 1) / a < (off + a - 1) / a := by
        rw [hdiv]; exact Nat.lt_succ_self _
      have hlt : off - 1 < (off + a - 1) / a * a :=
        (Nat.div_lt_iff_lt_mul ha).mp hq
      have h2 : off - 1 + 1 ≤ (off + a - 1) / a * a := hlt
      rwa [Nat.sub_add_cancel h0] at h2

theorem alignUp_lt (off a : Nat) (ha : 0 < a) : alignUp off a < off + a := by
  unfold alignUp
  simp only [Nat.pos_iff_ne_zero.mp ha, if_false]
  have h1 : (off + a - 1) / a * a ≤ off + a - 1 := Nat.div_mul_le_self _ _
  have h2 : off + a - 1 < off + a := by omega
  exact Nat.lt_of_le_of_lt h1 h2

theorem alignUp_dvd (off a : Nat) (ha : 0 < a) : a ∣ alignUp off a := by
  unfold alignUp
  simp only [Nat.pos_iff_ne_zero.mp ha, if_false]
  exact ⟨(off + a - 1) / a, Nat.mul_comm _ _⟩

theorem alignUp_min (off a m : Nat) (ha : 0 < a) (hm : off ≤ m)
    (hdvd : a ∣ m) : alignUp off a ≤ m := by
  unfold alignUp
  simp only [Nat.pos_iff_ne_zero.mp ha, if_false]
  have h1 : off + a - 1 ≤ a - 1 + m := by omega
  have h2 : (off + a - 1) / a ≤ (a - 1 + m) / a := Nat.div_le_div_right h1
  have h3 : (a - 1 + m) / a = m / a := by
    obtain ⟨k, hk⟩ := hdvd
    subst hk
    rw [Nat.add_mul_div_left _ _ ha, Nat.div_eq_of_lt (by omega),
      Nat.mul_div_cancel_left _ ha, Nat.zero_add]
  have h4 : (off + a - 1) / a ≤ m / a := le_trans h2 (le_of_eq h3)
  have h5 : (off + a - 1) / a * a ≤ m / a * a := Nat.mul_le_mul_right a h4
  rwa [Nat.div_mul_cancel hdvd] at h5

theorem alignUp_isMinAlignedOffset (off a : Nat) (ha : 0 < a) :
    isMinAlignedOffset off a (alignUp off a) :=
  ⟨le_alignUp off a, alignUp_dvd off a ha, fun m h1 h2 => alignUp_min off a m ha h1 h2⟩

theorem layoutFields_wellPlaced (ds : List Descriptor) :
    ∀ start : Nat, (∀ d ∈ ds, 0 < d.alignment) →
      fieldsWellPlaced start ds (layoutFields start ds).1 := by
  induction ds with
  | nil => intro start _; simp [layoutFields, fieldsWellPlaced]
  | cons d ds ih =>
      intro start h
      have hd : 0 < d.alignment := h d (List.mem_cons_self d ds)
      show fieldsWellPlaced start (d :: ds)
        ({ offset := alignUp start d.alignment, size := d.size,
           alignment := d.alignment } ::
          (layoutFields (alignUp start d.alignment + d.size) ds).1)
      exact ⟨alignUp_isMinAlignedOffset start d.alignment hd, rfl, rfl,
        ih _ (fun x hx => h x (List.mem_cons_of_mem d hx))⟩

theorem layoutFields_chainEnd (ds : List Descriptor) :
    ∀ start : Nat,
      (layoutFields start ds).2 = chainEnd start (layoutFields start ds).1 := by
  induction ds with
  | nil => intro start; simp [layoutFields, chainEnd]
  | cons d ds ih => intro start; simp only [layoutFields, chainEnd]; exact ih _

theorem fieldsWellPlaced_append (ds1 : List Descriptor) :
    ∀ (start : Nat) (fs1 : List Field) (ds2 : List Descriptor) (fs2 : List Field),
      fieldsWellPlaced start ds1 fs1 →
      fieldsWellPlaced (chainEnd start fs1) ds2 fs2 →
      fieldsWellPlaced start (ds1 ++ ds2) (fs1 ++ fs2) := by
  induction ds1 with
  | nil =>
      intro start fs1 ds2 fs2 h1 h2
      cases fs1 with
      | nil => simpa [chainEnd] using h2
      | cons f fs => exact absurd h1 (by simp [fieldsWellPlaced])
  | cons d ds ih =>
      intro start fs1 ds2 fs2 h1 h2
      cases fs1 with
      | nil => exact absurd h1 (by simp [fieldsWellPlaced])
      | cons f fs =>
          obtain ⟨ha, hs, hal, hrest⟩ := h1
          exact ⟨ha, hs, hal, ih _ fs ds2 fs2 hrest (by simpa [chainEnd] using h2)⟩

theorem fieldsWellPlaced_starts_le (ds : List Descriptor) :
    ∀ (start : Nat) (fs : List Field), fieldsWellPlaced start ds fs →
      ∀ f ∈ fs, start ≤ f.offset := by
  induction ds with
  | nil =>
      intro start fs h f hf
      cases fs with
      | nil => cases hf
      | cons g gs => exact absurd h (by simp [fieldsWellPlaced])
  | cons d ds ih =>
      intro start fs h f hf
      cases fs with
      | nil => cases hf
      | cons g gs =>
          obtain ⟨⟨hle, _, _⟩, _, _, hrest⟩ := h
          rcases List.mem_cons.mp hf with h1 | h1
          · subst h1; exact hle
          · exact le_trans (by omega) (ih _ gs hrest f h1)

theorem chainEnd_eq (fs : List Field) :
    ∀ (start : Nat) (ds : List Descriptor), fieldsWellPlaced start ds fs →
      chainEnd start fs = start + sumSizes fs + gapsFrom start fs := by
  induction fs with
  | nil => intro start ds _; simp [chainEnd, sumSizes, gapsFrom]
  | cons f fs ih =>
      intro start ds h
      cases ds with
      | nil => exact absurd h (by simp [fieldsWellPlaced])
      | cons d ds =>
          obtain ⟨⟨hle, _, _⟩, _, _, hrest⟩ := h
          have := ih (f.offset + f.size) ds hrest
          simp only [chainEnd, sumSizes, gapsFrom, List.map_cons, List.sum_cons] at *
          omega

/-- C1: ComputeLayout produces a layout whose first field is the target
function pointer (pointer-sized, pointer-aligned, at offset 0), followed
by one field per parameter in declared order each placed at the minimal
offset satisfying its own alignment, followed by a final return-value
field sized/aligned per the return descriptor; the total buffer size
equals the sum of the field sizes plus the padding gaps.  Zero-parameter
signatures still get the function-pointer field, and a zero-size (void)
return descriptor yields a zero-size return field, as instances of the
same statement. -/
theorem computeLayout_correct (ptrSize ptrAlign : Nat) (ret : Descriptor)
    (params : List Descriptor) (hparams : ∀ d ∈ params, 0 < d.alignment)
    (hret : 0 < ret.alignment) :
    layoutCorrect ptrSize ptrAlign ret params
      (ComputeLayout ptrSize ptrAlign ret params) := by
  have hwp : fieldsWellPlaced ptrSize params (layoutFields ptrSize params).1 :=
    layoutFields_wellPlaced params ptrSize hparams
  have hret1 : fieldsWellPlaced (chainEnd ptrSize (layoutFields ptrSize params).1)
      [ret] [(ComputeLayout ptrSize ptrAlign ret params).returnField] := by
    rw [← layoutFields_chainEnd params ptrSize]
    exact ⟨alignUp_isMinAlignedOffset _ _ hret, rfl, rfl, trivial⟩
  have happ : fieldsWellPlaced ptrSize (params ++ [ret])
      ((ComputeLayout ptrSize ptrAlign ret params).paramFields ++
        [(ComputeLayout ptrSize ptrAlign ret params).returnField]) :=
    fieldsWellPlaced_append params ptrSize _ [ret] _ hwp hret1
  refine ⟨rfl, happ, ?_⟩
  have hce := chainEnd_eq
    ((ComputeLayout ptrSize ptrAlign ret params).paramFields ++
      [(ComputeLayout ptrSize ptrAlign ret params).returnField])
    ptrSize (params ++ [ret]) happ
  have hend : chainEnd ptrSize
      ((ComputeLayout ptrSize ptrAlign ret params).paramFields ++
        [(ComputeLayout ptrSize ptrAlign ret params).returnField]) =
      (ComputeLayout ptrSize ptrAlign ret params).totalSize := by
    have hchain : ∀ (fs : List Field) (s : Nat) (f : Field),
        chainEnd s (fs ++ [f]) = f.offset + f.size := by
      intro fs
      induction fs with
      | nil => intro s f; simp [chainEnd]
      | cons g gs ih => intro s f; simp only [List.cons_append, chainEnd]; exact ih _ f
    rw [hchain]
    rfl
  rw [← hend, hce]
  simp only [ArgumentLayout.allFields, sumSizes, gapsFrom, List.map_cons,
    List.sum_cons, ComputeLayout, Nat.sub_zero, Nat.zero_add, Nat.add_zero]

/-- Witness for C1: a mixed int/pointer-aligned signature with a
void-like (zero-size) return descriptor, on the 64-bit pointer model. -/
theorem computeLayout_correct_witness :
    (∀ d ∈ [Descriptor.mk 4 4, Descriptor.mk 8 8], 0 < d.alignment) ∧
    0 < (Descriptor.mk 0 1).alignment ∧
    layoutCorrect 8 8 (Descriptor.mk 0 1) [Descriptor.mk 4 4, Descriptor.mk 8 8]
      (ComputeLayout 8 8 (Descriptor.mk 0 1) [Descriptor.mk 4 4, Descriptor.mk 8 8]) :=
  ⟨by decide, by decide,
    computeLayout_correct 8 8 (Descriptor.mk 0 1)
      [Descriptor.mk 4 4, Descriptor.mk 8 8] (by decide) (by decide)⟩

theorem writeBytes_in (mem : Memory) (addr : Nat) (bytes : List Nat) (a : Nat)
    (h1 : addr ≤ a) (h2 : a < addr + bytes.length) :
    writeBytes mem addr bytes a = bytes.getD (a - addr) 0 := by
  unfold writeBytes
  rw [if_pos ⟨h1, h2⟩]

theorem writeBytes_out (mem : Memory) (addr : Nat) (bytes : List Nat) (a : Nat)
    (h : a < addr ∨ addr + bytes.length ≤ a) :
    writeBytes mem addr bytes a = mem a := by
  unfold writeBytes
  rw [if_neg (by omega)]

theorem writeBytes_pointwise (m1 m2 : Memory) (addr : Nat) (bytes : List Nat)
    (a : Nat) (h : m1 a = m2 a) :
    writeBytes m1 addr bytes a = writeBytes m2 addr bytes a := by
  unfold writeBytes
  by_cases hc : addr ≤ a ∧ a < addr + bytes.length
  · rw [if_pos hc, if_pos hc]
  · rw [if_neg hc, if_neg hc]
    exact h

theorem readBytes_congr (m1 m2 : Memory) (addr n : Nat)
    (h : ∀ a, addr ≤ a → a < addr + n → m1 a = m2 a) :
    readBytes m1 addr n = readBytes m2 addr n := by
  unfold readBytes
  refine List.map_congr_left (fun i hi => ?_)
  have hlt : i < n := List.mem_range.mp hi
  exact h (addr + i) (by omega) (by omega)

theorem readBytes_writeBytes_same (mem : Memory) (addr : Nat) (bytes : List Nat) :
    readBytes (writeBytes mem addr bytes) addr bytes.length = bytes := by
  apply List.ext_getElem
  · simp [readBytes]
  · intro i h1 h2
    simp only [readBytes, List.getElem_map, List.getElem_range]
    rw [writeBytes_in mem addr bytes (addr + i) (by omega) (by omega)]
    rw [Nat.add_sub_cancel_left]
    exact List.getD_eq_getElem bytes 0 h2

theorem valuesMatch_lengths (vs : List (List Nat)) :
    ∀ fs : List Field, valuesMatch vs fs = true → vs.length = fs.length := by
  induction vs with
  | nil =>
      intro fs h
      cases fs with
      | nil => rfl
      | cons f fs => simp [valuesMatch] at h
  | cons v vs ih =>
      intro fs h
      cases fs with
      | nil => simp [valuesMatch] at h
      | cons f fs =>
          simp only [valuesMatch, Bool.and_eq_true, beq_iff_eq] at h
          simp only [List.length_cons, ih fs h.2]

theorem valuesMatch_head (v : List Nat) (vs : List (List Nat)) (f : Field)
    (fs : List Field) (h : valuesMatch (v :: vs) (f :: fs) = true) :
    v.length = f.size ∧ valuesMatch vs fs = true := by
  simpa only [valuesMatch, Bool.and_eq_true, beq_iff_eq] using h

theorem fieldsWellPlaced_disjoint (ds : List Descriptor) :
    ∀ (start : Nat) (fs : List Field), fieldsWellPlaced start ds fs →
      fieldsDisjointFrom start fs := by
  induction ds with
  | nil =>
      intro start fs h
      cases fs with
      | nil => trivial
      | cons f fs => exact absurd h (by simp [fieldsWellPlaced])
  | cons d ds ih =>
      intro start fs h
      cases fs with
      | nil => trivial
      | cons f fs =>
          obtain ⟨⟨hle, _, _⟩, _, _, hrest⟩ := h
          exact ⟨hle, ih _ fs hrest⟩

theorem le_chainEnd (fs : List Field) :
    ∀ s : Nat, fieldsDisjointFrom s fs → s ≤ chainEnd s fs := by
  induction fs with
  | nil => intro s _; exact le_refl s
  | cons f fs ih =>
      intro s h
      obtain ⟨h1, h2⟩ := h
      exact le_trans (le_trans h1 (Nat.le_add_right _ _)) (ih _ h2)

theorem fieldsDisjoint_bounds (fs : List Field) :
    ∀ k : Nat, fieldsDisjointFrom k fs →
      ∀ f ∈ fs, k ≤ f.offset ∧ f.offset + f.size ≤ chainEnd k fs := by
  induction fs with
  | nil => intro k _ f hf; cases hf
  | cons g gs ih =>
      intro k h f hf
      obtain ⟨h1, h2⟩ := h
      have hch : chainEnd k (g :: gs) = chainEnd (g.offset + g.size) gs := rfl
      rcases List.mem_cons.mp hf with rfl | hmem
      · refine ⟨h1, ?_⟩
        rw [hch]
        exact le_chainEnd gs _ h2
      · have := ih _ h2 f hmem
        rw [hch]
        omega

theorem writeFields_preserves_out (fs : List Field) :
    ∀ (vs : List (List Nat)) (base k : Nat) (mem : Memory) (a : Nat),
      fieldsDisjointFrom k fs → valuesMatch vs fs = true →
      (a < base + k ∨ base + chainEnd k fs ≤ a) →
      writeFields base fs vs mem a = mem a := by
  induction fs with
  | nil =>
      intro vs base k mem a _ hm _
      cases vs with
      | nil => rfl
      | cons v vs => simp [valuesMatch] at hm
  | cons f fs ih =>
      intro vs base k mem a hd hm ha
      cases vs with
      | nil => simp [valuesMatch] at hm
      | cons v vs =>
          obtain ⟨hk, hd2⟩ := hd
          obtain ⟨hlen, hm2⟩ := valuesMatch_head v vs f fs hm
          have hch : chainEnd k (f :: fs) = chainEnd (f.offset + f.size) fs := rfl
          rw [hch] at ha
          have hce : f.offset + f.size ≤ chainEnd (f.offset + f.size) fs :=
            le_chainEnd fs _ hd2
          show writeFields base fs vs (writeBytes mem (base + f.offset) v) a = mem a
          rw [ih vs base (f.offset + f.size) _ a hd2 hm2 (by omega)]
          exact writeBytes_out mem _ v a (by omega)

theorem writeFields_pointwise (fs : List Field) :
    ∀ (vs : List (List Nat)) (base : Nat) (m1 m2 : Memory) (a : Nat),
      m1 a = m2 a → writeFields base fs vs m1 a = writeFields base fs vs m2 a := by
  induction fs with
  | nil =>
      intro vs base m1 m2 a h
      cases vs with
      | nil => exact h
      | cons v vs => exact h
  | cons f fs ih =>
      intro vs base m1 m2 a h
      cases vs with
      | nil => exact h
      | cons v vs =>
          exact ih vs base _ _ a (writeBytes_pointwise m1 m2 _ v a h)

theorem writeFields_roundTrip (fs : List Field) :
    ∀ (vs : List (List Nat)) (base k : Nat) (mem : Memory),
      fieldsDisjointFrom k fs → valuesMatch vs fs = true →
      ∀ p ∈ vs.zip fs,
        readBytes (writeFields base fs vs mem) (base + p.2.offset) p.2.size = p.1 := by
  induction fs with
  | nil =>
      intro vs base k mem _ hm p hp
      cases vs with
      | nil => cases hp
      | cons v vs => simp [valuesMatch] at hm
  | cons f fs ih =>
      intro vs base k mem hd hm p hp
      cases vs with
      | nil => simp [valuesMatch] at hm
      | cons v vs =>
          obtain ⟨hk, hd2⟩ := hd
          obtain ⟨hlen, hm2⟩ := valuesMatch_head v vs f fs hm
          rw [List.zip_cons_cons] at hp
          rcases List.mem_cons.mp hp with rfl | hmem
          · show readBytes (writeFields base fs vs (writeBytes mem (base + f.offset) v))
              (base + f.offset) f.size = v
            have hstep : readBytes
                (writeFields base fs vs (writeBytes mem (base + f.offset) v))
                (base + f.offset) f.size =
                readBytes (writeBytes mem (base + f.offset) v) (base + f.offset) f.size := by
              apply readBytes_congr
              intro a h1 h2
              exact writeFields_preserves_out fs vs base (f.offset + f.size) _ a hd2 hm2
                (Or.inl (by omega))
            rw [hstep, ← hlen, readBytes_writeBytes_same]
          · exact ih vs base (f.offset + f.size) _ hd2 hm2 p hmem

theorem callerLayout_paramFields_wellPlaced (c : Caller)
    (halign : ∀ d ∈ c.sig.paramDescs, 0 < d.alignment) :
    fieldsWellPlaced ptrSize c.sig.paramDescs (callerLayout c).paramFields :=
  layoutFields_wellPlaced c.sig.paramDescs ptrSize halign

theorem callerLayout_paramFields_disjoint (c : Caller)
    (halign : ∀ d ∈ c.sig.paramDescs, 0 < d.alignment) :
    fieldsDisjointFrom ptrSize (callerLayout c).paramFields :=
  fieldsWellPlaced_disjoint c.sig.paramDescs ptrSize _
    (callerLayout_paramFields_wellPlaced c halign)

/-- C4: WriteFunctionArguments is atomic on argument-count mismatch:
with N values and P declared parameters, N ≠ P, the call fails with
ArgumentMismatch and every byte of memory — in particular every byte of
the invocation buffer — is left unmodified. -/
theorem writeArguments_mismatch_atomic (c : Caller) (mem : Memory)
    (argsAddr : Nat) (values : List (List Nat))
    (h : values.length ≠ c.sig.paramDescs.length) :
    (WriteFunctionArguments c mem argsAddr values).2 =
        some CallError.ArgumentMismatch ∧
    ∀ a, (WriteFunctionArguments c mem argsAddr values).1 a = mem a := by
  have hcond : ((values.length == c.sig.paramDescs.length) &&
      valuesMatch values (callerLayout c).paramFields) = false := by
    simp [h]
  constructor
  · simp [WriteFunctionArguments, hcond]
  · intro a
    simp [WriteFunctionArguments, hcond]

/-- Witness for C4: one value supplied against the two-parameter
signature `sig0`. -/
theorem writeArguments_mismatch_atomic_witness :
    ([[0, 0, 0, 0]] : List (List Nat)).length ≠ caller0.sig.paramDescs.length ∧
    (WriteFunctionArguments caller0 mem0 256 [[0, 0, 0, 0]]).2 =
        some CallError.ArgumentMismatch ∧
    ∀ a, (WriteFunctionArguments caller0 mem0 256 [[0, 0, 0, 0]]).1 a = mem0 a :=
  ⟨by decide,
    (writeArguments_mismatch_atomic caller0 mem0 256 [[0, 0, 0, 0]] (by decide)).1,
    (writeArguments_mismatch_atomic caller0 mem0 256 [[0, 0, 0, 0]] (by decide)).2⟩

/-- C7: buffer argument access round-trips: writing matching argument
values with WriteFunctionArguments succeeds, and reading each argument
field back before any execution returns exactly the value written. -/
theorem writeArguments_roundTrip (c : Caller) (mem : Memory) (argsAddr : Nat)
    (values : List (List Nat))
    (hcount : values.length = c.sig.paramDescs.length)
    (hmatch : valuesMatch values (callerLayout c).paramFields = true)
    (halign : ∀ d ∈ c.sig.paramDescs, 0 < d.alignment) :
    (WriteFunctionArguments c mem argsAddr values).2 = none ∧
    ∀ p ∈ values.zip (callerLayout c).paramFields,
      readArgumentField (WriteFunctionArguments c mem argsAddr values).1
        argsAddr p.2 = p.1 := by
  have hcond : ((values.length == c.sig.paramDescs.length) &&
      valuesMatch values (callerLayout c).paramFields) = true := by
    simp [hcount, hmatch]
  constructor
  · simp [WriteFunctionArguments, hcond]
  · intro p hp
    have hmem : (WriteFunctionArguments c mem argsAddr values).1 =
        writeFields argsAddr (callerLayout c).paramFields values mem := by
      simp [WriteFunctionArguments, hcond]
    rw [hmem]
    exact writeFields_roundTrip (callerLayout c).paramFields values argsAddr
      ptrSize mem (callerLayout_paramFields_disjoint c halign) hmatch p hp

/-- Witness for C7: values of the declared sizes for `sig0`, written at
a concrete buffer address. -/
theorem writeArguments_roundTrip_witness :
    ([[1, 2, 3, 4], [5, 6, 7, 8, 9, 10, 11, 12]] : List (List Nat)).length =
        caller0.sig.paramDescs.length ∧
    valuesMatch [[1, 2, 3, 4], [5, 6, 7, 8, 9, 10, 11, 12]]
        (callerLayout caller0).paramFields = true ∧
    ((WriteFunctionArguments caller0 mem0 256
        [[1, 2, 3, 4], [5, 6, 7, 8, 9, 10, 11, 12]]).2 = none ∧
      ∀ p ∈ ([[1, 2, 3, 4], [5, 6, 7, 8, 9, 10, 11, 12]] : List (List Nat)).zip
          (callerLayout caller0).paramFields,
        readArgumentField (WriteFunctionArguments caller0 mem0 256
          [[1, 2, 3, 4], [5, 6, 7, 8, 9, 10, 11, 12]]).1 256 p.2 = p.1) :=
  ⟨by decide, by decide,
    writeArguments_roundTrip caller0 mem0 256
      [[1, 2, 3, 4], [5, 6, 7, 8, 9, 10, 11, 12]] (by decide) (by decide) (by decide)⟩

/-- C2: CompileFunction is idempotent: once a call has returned zero
errors, calling it again on the resulting Caller is a no-op — it
returns the very same state (same thunk address, same diagnostic error
count) and zero. -/
theorem compileFunction_idempotent (backend : CodeGenBackend) (c : Caller)
    (hbackend : ∀ s n, backend s = Except.error n → 0 < n)
    (hfirst : (CompileFunction backend c).2 = 0) :
    CompileFunction backend (CompileFunction backend c).1 =
      ((CompileFunction backend c).1, 0) := by
  by_cases hc : c.compiled
  · simp [CompileFunction, hc]
  · cases hb : backend c.sig with
    | ok addr => simp [CompileFunction, hc, hb]
    | error n =>
        have hn : 0 < n := hbackend _ _ hb
        have : (CompileFunction backend c).2 = n := by
          simp [CompileFunction, hc, hb]
        omega

/-- Witness for C2: an always-succeeding backend and a fresh Caller. -/
theorem compileFunction_idempotent_witness :
    (CompileFunction bk0 caller0).2 = 0 ∧
    CompileFunction bk0 (CompileFunction bk0 caller0).1 =
      ((CompileFunction bk0 caller0).1, 0) :=
  ⟨rfl, compileFunction_idempotent bk0 caller0
    (fun s n h => by simp [bk0] at h) rfl⟩

/-- C3: CompileFunction reports failure exclusively through its returned
count (the model is a total function — there is no exception channel):
the Caller's diagnostic count grows by exactly the returned value, and
starting from a fresh Caller the compiled thunk exists afterwards iff
the returned count is zero. -/
theorem compileFunction_error_contract (backend : CodeGenBackend) (c : Caller)
    (hbackend : ∀ s n, backend s = Except.error n → 0 < n)
    (hfresh : c.compiled = false) (hthunk : c.thunkAddr = none) :
    ((CompileFunction backend c).1).diagErrorCount =
        c.diagErrorCount + (CompileFunction backend c).2 ∧
    (((CompileFunction backend c).1).thunkAddr.isSome ↔
        (CompileFunction backend c).2 = 0) := by
  cases hb : backend c.sig with
  | ok addr => simp [CompileFunction, hfresh, hb]
  | error n =>
      have hn : 0 < n := hbackend _ _ hb
      simp [CompileFunction, hfresh, hb, hthunk]
      omega

/-- Witness for C3: the always-succeeding backend on a fresh Caller. -/
theorem compileFunction_error_contract_witness :
    caller0.compiled = false ∧ caller0.thunkAddr = none ∧
    (((CompileFunction bk0 caller0).1).diagErrorCount =
        caller0.diagErrorCount + (CompileFunction bk0 caller0).2 ∧
      (((CompileFunction bk0 caller0).1).thunkAddr.isSome ↔
        (CompileFunction bk0 caller0).2 = 0)) :=
  ⟨rfl, rfl, compileFunction_error_contract bk0 caller0
    (fun s n h => by simp [bk0] at h) rfl rfl⟩

/-- C5: InsertFunction with the invalid-address sentinel ensures a
compiled thunk exists, allocates a fresh argument structure (an address
not previously allocated, allocated afterwards) and returns its address;
with a valid existing address it makes no new allocation and reuses that
buffer. -/
theorem insertFunction_spec (backend : CodeGenBackend) (c : Caller)
    (st : AllocState) (argsAddr : Nat) (c2 : Caller) (st2 : AllocState)
    (addr : Nat)
    (hwf : c.compiled = true → c.thunkAddr.isSome)
    (hinv : ∀ a ∈ st.allocated, a < st.nextAddr)
    (hbackend : ∀ s n, backend s = Except.error n → 0 < n)
    (heq : InsertFunction backend c st argsAddr = some (c2, st2, addr)) :
    c2.compiled = true ∧ c2.thunkAddr.isSome ∧
    (argsAddr = LLDB_INVALID_ADDRESS →
      addr ∉ st.allocated ∧ addr ∈ st2.allocated) ∧
    (argsAddr ≠ LLDB_INVALID_ADDRESS → st2 = st ∧ addr = argsAddr) := by
  unfold InsertFunction at heq
  by_cases hz : (CompileFunction backend c).2 ≠ 0
  · rw [if_pos hz] at heq
    cases heq
  · rw [if_neg hz] at heq
    push_neg at hz
    have hcompiled : (CompileFunction backend c).1.compiled = true ∧
        ((CompileFunction backend c).1).thunkAddr.isSome := by
      by_cases hcc : c.compiled
      · have h1 : (CompileFunction backend c).1 = c := by
          simp [CompileFunction, hcc]
        rw [h1]
        exact ⟨hcc, hwf hcc⟩
      · cases hb : backend c.sig with
        | ok a2 => simp [CompileFunction, hcc, hb]
        | error n =>
            have hn : 0 < n := hbackend _ _ hb
            have h2 : (CompileFunction backend c).2 = n := by
              simp [CompileFunction, hcc, hb]
            omega
    by_cases hs : argsAddr = LLDB_INVALID_ADDRESS
    · rw [if_pos hs] at heq
      simp only [Option.some.injEq, Prod.mk.injEq] at heq
      obtain ⟨h1, h2, h3⟩ := heq
      refine ⟨by rw [← h1]; exact hcompiled.1,
        by rw [← h1]; exact hcompiled.2, ?_, ?_⟩
      · intro _
        constructor
        · rw [← h3]
          show st.nextAddr ∉ st.allocated
          intro hmem
          exact absurd (hinv _ hmem) (lt_irrefl _)
        · rw [← h3, ← h2]
          show st.nextAddr ∈ st.nextAddr :: st.allocated
          exact List.mem_cons_self _ _
      · intro hne
        exact absurd hs hne
    · rw [if_neg hs] at heq
      simp only [Option.some.injEq, Prod.mk.injEq] at heq
      obtain ⟨h1, h2, h3⟩ := heq
      refine ⟨by rw [← h1]; exact hcompiled.1,
        by rw [← h1]; exact hcompiled.2, ?_, ?_⟩
      · intro hsent
        exact absurd hsent hs
      · intro _
        exact ⟨h2.symm, h3.symm⟩

/-- Witness for C5: the sentinel requests a fresh allocation from `st0`
for the fresh Caller `caller0` under the always-succeeding backend. -/
theorem insertFunction_spec_witness :
    (∀ a ∈ st0.allocated, a < st0.nextAddr) ∧
    ((CompileFunction bk0 caller0).1.compiled = true ∧
      ((CompileFunction bk0 caller0).1).thunkAddr.isSome ∧
      (LLDB_INVALID_ADDRESS = LLDB_INVALID_ADDRESS →
        256 ∉ st0.allocated ∧
        256 ∈ (allocateBuffer st0
          (callerLayout (CompileFunction bk0 caller0).1).totalSize).1.allocated) ∧
      (LLDB_INVALID_ADDRESS ≠ LLDB_INVALID_ADDRESS →
        (allocateBuffer st0
          (callerLayout (CompileFunction bk0 caller0).1).totalSize).1 = st0 ∧
        256 = LLDB_INVALID_ADDRESS)) :=
  ⟨by decide,
    insertFunction_spec bk0 caller0 st0 LLDB_INVALID_ADDRESS
      (CompileFunction bk0 caller0).1
      (allocateBuffer st0
        (callerLayout (CompileFunction bk0 caller0).1).totalSize).1
      256
      (fun h => absurd h (by decide))
      (by decide)
      (fun s n h => by simp [bk0] at h)
      rfl⟩

/-- C6: passing NULL for arg_addr_ptr is accepted — the call does not
fail on this account whenever compilation succeeds — and the argument
buffer is then allocated by the engine, tracked on the Caller, and freed
when the Caller is destroyed (lifetime tied to the Caller). -/
theorem nullArgAddr_engineManaged (backend : CodeGenBackend) (c : Caller)
    (st : AllocState) (hc : (CompileFunction backend c).2 = 0) :
    ∃ c2 st2 addr,
      resolveArgAddr backend c st none = some (c2, st2, addr) ∧
      addr ∈ c2.ownedBuffers ∧ addr ∈ st2.allocated ∧
      addr ∉ (destroyCaller c2 st2).allocated := by
  refine ⟨{ (CompileFunction backend c).1 with ownedBuffers :=
      st.nextAddr :: ((CompileFunction backend c).1).ownedBuffers },
    (allocateBuffer st
      (callerLayout (CompileFunction backend c).1).totalSize).1,
    st.nextAddr, ?_, ?_, ?_, ?_⟩
  · show resolveArgAddr backend c st none = _
    unfold resolveArgAddr
    rw [if_neg (by omega)]
    rfl
  · exact List.mem_cons_self _ _
  · exact List.mem_cons_self _ _
  · intro hmem
    have h2 := (List.mem_filter.mp hmem).2
    simp at h2

/-- Witness for C6: NULL arg_addr_ptr on the fresh Caller `caller0`
under the always-succeeding backend. -/
theorem nullArgAddr_engineManaged_witness :
    (CompileFunction bk0 caller0).2 = 0 ∧
    ∃ c2 st2 addr,
      resolveArgAddr bk0 caller0 st0 none = some (c2, st2, addr) ∧
      addr ∈ c2.ownedBuffers ∧ addr ∈ st2.allocated ∧
      addr ∉ (destroyCaller c2 st2).allocated :=
  ⟨rfl, nullArgAddr_engineManaged bk0 caller0 st0 rfl⟩

/-- C8: a faulted execution does not poison the Caller: invoking a
target address whose code raises a hardware fault yields
executionFaulted, the Caller's compiled thunk and cached layout are
unchanged, and a subsequent invocation of a valid target on the same
Caller completes. -/
theorem faultedExecution_noPoison (target : TargetCode) (c : Caller)
    (mem : Memory) (argsAddr badAddr goodAddr : Nat)
    (hbad : target badAddr = none) (hgood : (target goodAddr).isSome = true) :
    (ExecuteFunction target c mem argsAddr badAddr).2.2 =
        InvocationResult.executionFaulted ∧
    ((ExecuteFunction target c mem argsAddr badAddr).1).thunkAddr = c.thunkAddr ∧
    ((ExecuteFunction target c mem argsAddr badAddr).1).layoutCache = c.layoutCache ∧
    ∃ ret, (ExecuteFunction target (ExecuteFunction target c mem argsAddr badAddr).1
        (ExecuteFunction target c mem argsAddr badAddr).2.1 argsAddr goodAddr).2.2 =
      InvocationResult.completed ret := by
  have h1 : ExecuteFunction target c mem argsAddr badAddr =
      (c, mem, InvocationResult.executionFaulted) := by
    unfold ExecuteFunction
    rw [hbad]
  rw [h1]
  refine ⟨rfl, rfl, rfl, ?_⟩
  cases hg : target goodAddr with
  | none => rw [hg] at hgood; simp at hgood
  | some f =>
      have h2 : (ExecuteFunction target c mem argsAddr goodAddr).2.2 =
          InvocationResult.completed
            (f ((callerLayout c).paramFields.map
              (fun fld => readBytes mem (argsAddr + fld.offset) fld.size))) := by
        unfold ExecuteFunction
        rw [hg]
      exact ⟨_, h2⟩

/-- Witness for C8: `target0` faults at address 7 and completes at
address 9, on the compiled Caller `caller1`. -/
theorem faultedExecution_noPoison_witness :
    target0 7 = none ∧ (target0 9).isSome = true ∧
    ((ExecuteFunction target0 caller1 mem0 1000 7).2.2 =
        InvocationResult.executionFaulted ∧
      ((ExecuteFunction target0 caller1 mem0 1000 7).1).thunkAddr =
        caller1.thunkAddr ∧
      ((ExecuteFunction target0 caller1 mem0 1000 7).1).layoutCache =
        caller1.layoutCache ∧
      ∃ ret, (ExecuteFunction target0
          (ExecuteFunction target0 caller1 mem0 1000 7).1
          (ExecuteFunction target0 caller1 mem0 1000 7).2.1 1000 9).2.2 =
        InvocationResult.completed ret) :=
  ⟨rfl, rfl, faultedExecution_noPoison target0 caller1 mem0 1000 7 9 rfl rfl⟩

theorem map_eq_of_zip (vs : List (List Nat)) :
    ∀ (fs : List Field) (g : Field → List Nat), vs.length = fs.length →
      (∀ p ∈ vs.zip fs, g p.2 = p.1) → fs.map g = vs := by
  induction vs with
  | nil =>
      intro fs g hlen _
      cases fs with
      | nil => rfl
      | cons f fs => simp at hlen
  | cons v vs ih =>
      intro fs g hlen h
      cases fs with
      | nil => simp at hlen
      | cons f fs =>
          simp only [List.map_cons]
          have h1 : g f = v :=
            h (v, f) (by rw [List.zip_cons_cons]; exact List.mem_cons_self _ _)
          rw [h1, ih fs g (by simpa using hlen)
            (fun p hp => h p
              (by rw [List.zip_cons_cons]; exact List.mem_cons_of_mem _ hp))]

theorem callerLayout_chainEnd_le (c : Caller) :
    chainEnd ptrSize (callerLayout c).paramFields ≤
      (callerLayout c).returnField.offset := by
  have hce : chainEnd ptrSize (callerLayout c).paramFields =
      (layoutFields ptrSize c.sig.paramDescs).2 :=
    (layoutFields_chainEnd c.sig.paramDescs ptrSize).symm
  rw [hce]
  exact le_alignUp _ _

theorem callerLayout_total (c : Caller) :
    (callerLayout c).returnField.offset + (callerLayout c).returnField.size =
      (callerLayout c).totalSize := rfl

theorem callerLayout_paramField_bounds (c : Caller)
    (halign : ∀ d ∈ c.sig.paramDescs, 0 < d.alignment) :
    ∀ f ∈ (callerLayout c).paramFields,
      ptrSize ≤ f.offset ∧
      f.offset + f.size ≤ (callerLayout c).returnField.offset := by
  intro f hf
  have hb := fieldsDisjoint_bounds (callerLayout c).paramFields ptrSize
    (callerLayout_paramFields_disjoint c halign) f hf
  have hle := callerLayout_chainEnd_le c
  omega

theorem writeArgsOp_confined (c : Caller) (base : Nat) (vs : List (List Nat))
    (halign : ∀ d ∈ c.sig.paramDescs, 0 < d.alignment)
    (hm : valuesMatch vs (callerLayout c).paramFields = true) :
    confined (bufRegion c base)
      (fun m => writeFields base (callerLayout c).paramFields vs m) := by
  constructor
  · intro m a ha
    simp only [bufRegion, not_and, not_lt] at ha
    have hle := callerLayout_chainEnd_le c
    have ht := callerLayout_total c
    apply writeFields_preserves_out _ vs base ptrSize m a
      (callerLayout_paramFields_disjoint c halign) hm
    by_cases hb : base ≤ a
    · right
      have := ha hb
      omega
    · left
      omega
  · intro m1 m2 hag a hR
    exact writeFields_pointwise _ vs base m1 m2 a (hag a hR)

theorem execOp_confined (c : Caller) (base : Nat)
    (f : List (List Nat) → List Nat)
    (halign : ∀ d ∈ c.sig.paramDescs, 0 < d.alignment)
    (hflen : ∀ args, (f args).length = (callerLayout c).returnField.size) :
    confined (bufRegion c base)
      (fun m => writeBytes m (base + (callerLayout c).returnField.offset)
        (f ((callerLayout c).paramFields.map
          (fun fld => readBytes m (base + fld.offset) fld.size)))) := by
  constructor
  · intro m a ha
    simp only [bufRegion, not_and, not_lt] at ha
    have ht := callerLayout_total c
    apply writeBytes_out
    rw [hflen]
    by_cases hb : base ≤ a
    · right
      have := ha hb
      omega
    · left
      omega
  · intro m1 m2 hag a hR
    have hargs : (callerLayout c).paramFields.map
        (fun fld => readBytes m1 (base + fld.offset) fld.size) =
        (callerLayout c).paramFields.map
          (fun fld => readBytes m2 (base + fld.offset) fld.size) := by
      refine List.map_congr_left (fun fld hfld => ?_)
      have hbnd := callerLayout_paramField_bounds c halign fld hfld
      have ht := callerLayout_total c
      apply readBytes_congr
      intro b h1 h2
      apply hag
      simp only [bufRegion]
      omega
    show writeBytes m1 (base + (callerLayout c).returnField.offset)
        (f ((callerLayout c).paramFields.map
          (fun fld => readBytes m1 (base + fld.offset) fld.size))) a =
      writeBytes m2 (base + (callerLayout c).returnField.offset)
        (f ((callerLayout c).paramFields.map
          (fun fld => readBytes m2 (base + fld.offset) fld.size))) a
    rw [hargs]
    exact writeBytes_pointwise m1 m2 _ _ a (hag a hR)

theorem runOps_congr_on (R : Nat → Prop) (ops : List (Memory → Memory)) :
    ∀ (m1 m2 : Memory), (∀ op ∈ ops, confined R op) →
      (∀ a, R a → m1 a = m2 a) →
      ∀ a, R a → runOps ops m1 a = runOps ops m2 a := by
  induction ops with
  | nil => intro m1 m2 _ hag a hR; exact hag a hR
  | cons op ops ih =>
      intro m1 m2 h hag a hR
      show runOps ops (op m1) a = runOps ops (op m2) a
      exact ih (op m1) (op m2) (fun o ho => h o (List.mem_cons_of_mem _ ho))
        (fun b hb => (h op (List.mem_cons_self _ _)).2 m1 m2 hag b hb) a hR

theorem interleave_project (R1 : Nat → Prop) :
    ∀ {xs ys zs : List (Memory → Memory)}, Interleaving xs ys zs →
      (∀ op ∈ xs, confined R1 op) →
      (∀ op ∈ ys, ∀ (m : Memory) (a : Nat), R1 a → op m a = m a) →
      ∀ (mem : Memory) (a : Nat), R1 a → runOps zs mem a = runOps xs mem a := by
  intro xs ys zs hz
  induction hz with
  | nil => intro _ _ mem a _; rfl
  | @left x xs ys zs hz ih =>
      intro h1 h2 mem a hR
      show runOps zs (x mem) a = runOps xs (x mem) a
      exact ih (fun o ho => h1 o (List.mem_cons_of_mem _ ho)) h2 (x mem) a hR
  | @right y xs ys zs hz ih =>
      intro h1 h2 mem a hR
      show runOps zs (y mem) a = runOps xs mem a
      have hstep : ∀ b, R1 b → y mem b = mem b :=
        fun b hb => h2 y (List.mem_cons_self _ _) mem b hb
      calc runOps zs (y mem) a
          = runOps xs (y mem) a :=
            ih h1 (fun o ho => h2 o (List.mem_cons_of_mem _ ho)) (y mem) a hR
        _ = runOps xs mem a := runOps_congr_on R1 xs (y mem) mem h1 hstep a hR

theorem confined_mono (R S : Nat → Prop) (op : Memory → Memory)
    (hsub : ∀ a, R a → S a) (h : confined R op) : confined S op := by
  constructor
  · intro m a ha
    exact h.1 m a (fun hR => ha (hsub a hR))
  · intro m1 m2 hag a hS
    by_cases hR : R a
    · exact h.2 m1 m2 (fun b hb => hag b (hsub b hb)) a hR
    · rw [h.1 m1 a hR, h.1 m2 a hR]
      exact hag a hS

theorem interleaving_mem {xs ys zs : List (Memory → Memory)}
    (h : Interleaving xs ys zs) : ∀ op ∈ zs, op ∈ xs ∨ op ∈ ys := by
  induction h with
  | nil => intro op hop; cases hop
  | @left x xs ys zs h ih =>
      intro op hop
      rcases List.mem_cons.mp hop with rfl | hop2
      · exact Or.inl (List.mem_cons_self _ _)
      · rcases ih op hop2 with h1 | h2
        · exact Or.inl (List.mem_cons_of_mem _ h1)
        · exact Or.inr h2
  | @right y xs ys zs h ih =>
      intro op hop
      rcases List.mem_cons.mp hop with rfl | hop2
      · exact Or.inr (List.mem_cons_self _ _)
      · rcases ih op hop2 with h1 | h2
        · exact Or.inl h1
        · exact Or.inr (List.mem_cons_of_mem _ h2)

theorem interleavingN_mem {ts : List (List (Memory → Memory))}
    {zs : List (Memory → Memory)} (h : InterleavingN ts zs) :
    ∀ op ∈ zs, ∃ t ∈ ts, op ∈ t := by
  induction h with
  | nil => intro op hop; cases hop
  | @cons t ts w zs hN hI ih =>
      intro op hop
      rcases interleaving_mem hI op hop with h1 | h2
      · exact ⟨t, List.mem_cons_self _ _, h1⟩
      · obtain ⟨t2, ht2, hop2⟩ := ih op h2
        exact ⟨t2, List.mem_cons_of_mem _ ht2, hop2⟩

theorem interleaving_symm {xs ys zs : List (Memory → Memory)}
    (h : Interleaving xs ys zs) : Interleaving ys xs zs := by
  induction h with
  | nil => exact Interleaving.nil
  | left _ ih => exact Interleaving.right ih
  | right _ ih => exact Interleaving.left ih

theorem readArgs_after_writeFields (c : Caller) (base : Nat)
    (vs : List (List Nat)) (m : Memory)
    (halign : ∀ d ∈ c.sig.paramDescs, 0 < d.alignment)
    (hm : valuesMatch vs (callerLayout c).paramFields = true) :
    (callerLayout c).paramFields.map
      (fun fld => readBytes (writeFields base (callerLayout c).paramFields vs m)
        (base + fld.offset) fld.size) = vs := by
  apply map_eq_of_zip vs (callerLayout c).paramFields _
    (valuesMatch_lengths vs _ hm)
  intro p hp
  exact writeFields_roundTrip (callerLayout c).paramFields vs base ptrSize m
    (callerLayout_paramFields_disjoint c halign) hm p hp

theorem readArgs_after_retWrite (c : Caller) (base : Nat) (m : Memory)
    (bytes : List Nat)
    (halign : ∀ d ∈ c.sig.paramDescs, 0 < d.alignment) :
    (callerLayout c).paramFields.map
      (fun fld => readBytes
        (writeBytes m (base + (callerLayout c).returnField.offset) bytes)
        (base + fld.offset) fld.size) =
    (callerLayout c).paramFields.map
      (fun fld => readBytes m (base + fld.offset) fld.size) := by
  refine List.map_congr_left (fun fld hfld => ?_)
  have hbnd := callerLayout_paramField_bounds c halign fld hfld
  apply readBytes_congr
  intro a h1 h2
  apply writeBytes_out
  left
  omega

theorem invocation_sequential (c : Caller) (f : List (List Nat) → List Nat)
    (base : Nat) (vs : List (List Nat)) (mem : Memory)
    (halign : ∀ d ∈ c.sig.paramDescs, 0 < d.alignment)
    (hm : valuesMatch vs (callerLayout c).paramFields = true)
    (hflen : ∀ args, (f args).length = (callerLayout c).returnField.size) :
    readInvocationResult c (runOps (invocationOps c f base vs) mem) base =
      f vs := by
  show readInvocationResult c
    (writeBytes (writeFields base (callerLayout c).paramFields vs mem)
      (base + (callerLayout c).returnField.offset)
      (f ((callerLayout c).paramFields.map
        (fun fld => readBytes
          (writeFields base (callerLayout c).paramFields vs mem)
          (base + fld.offset) fld.size)))) base = f vs
  rw [readArgs_after_writeFields c base vs mem halign hm]
  unfold readInvocationResult
  rw [← hflen vs]
  exact readBytes_writeBytes_same _ _ _

theorem invocationOps_confined (c : Caller) (f : List (List Nat) → List Nat)
    (b : Nat) (vs : List (List Nat))
    (halign : ∀ d ∈ c.sig.paramDescs, 0 < d.alignment)
    (hflen : ∀ args, (f args).length = (callerLayout c).returnField.size)
    (hm : valuesMatch vs (callerLayout c).paramFields = true) :
    ∀ op ∈ invocationOps c f b vs, confined (bufRegion c b) op := by
  intro op hop
  simp only [invocationOps, List.mem_cons, List.not_mem_nil, or_false] at hop
  rcases hop with rfl | rfl
  · exact writeArgsOp_confined c b vs halign hm
  · exact execOp_confined c b f halign hflen

theorem readInvocationResult_congr (c : Caller) (m1 m2 : Memory) (b : Nat)
    (h : ∀ a, bufRegion c b a → m1 a = m2 a) :
    readInvocationResult c m1 b = readInvocationResult c m2 b := by
  have ht := callerLayout_total c
  unfold readInvocationResult
  apply readBytes_congr
  intro a h1 h2
  apply h
  simp only [bufRegion]
  omega

theorem interleavingN_result (c : Caller) (f : List (List Nat) → List Nat)
    (hflen : ∀ args, (f args).length = (callerLayout c).returnField.size)
    (halign : ∀ d ∈ c.sig.paramDescs, 0 < d.alignment) :
    ∀ (invs : List (Nat × List (List Nat))) (zs : List (Memory → Memory))
      (mem : Memory),
      InterleavingN (invs.map (fun bv => invocationOps c f bv.1 bv.2)) zs →
      List.Pairwise (fun p q => p.1 + (callerLayout c).totalSize ≤ q.1 ∨
        q.1 + (callerLayout c).totalSize ≤ p.1) invs →
      (∀ bv ∈ invs, valuesMatch bv.2 (callerLayout c).paramFields = true) →
      ∀ bv ∈ invs, readInvocationResult c (runOps zs mem) bv.1 = f bv.2 := by
  intro invs
  induction invs with
  | nil => intro zs mem _ _ _ bv hbv; cases hbv
  | cons p invs ih =>
      intro zs mem hInt hpair hvm bv hbv
      simp only [List.map_cons] at hInt
      cases hInt with
      | @cons _ _ w _ hN hI =>
          cases hpair with
          | cons hhead htail =>
              rcases List.mem_cons.mp hbv with rfl | hbv2
              · have hothers : ∀ op ∈ w, ∀ (m : Memory) (a : Nat),
                    bufRegion c bv.1 a → op m a = m a := by
                  intro op hop m a ha
                  obtain ⟨t2, ht2, hop2⟩ := interleavingN_mem hN op hop
                  obtain ⟨q, hq, hgq⟩ := List.mem_map.mp ht2
                  rw [← hgq] at hop2
                  have hconf := invocationOps_confined c f q.1 q.2 halign hflen
                    (hvm q (List.mem_cons_of_mem _ hq)) op hop2
                  have hRq : ¬ bufRegion c q.1 a := by
                    have hd := hhead q hq
                    simp only [bufRegion] at ha ⊢
                    omega
                  exact hconf.1 m a hRq
                have hproj := interleave_project (bufRegion c bv.1) hI
                  (invocationOps_confined c f bv.1 bv.2 halign hflen
                    (hvm bv (List.mem_cons_self _ _))) hothers mem
                have hbridge := readInvocationResult_congr c (runOps zs mem)
                  (runOps (invocationOps c f bv.1 bv.2) mem) bv.1
                  (fun a ha => hproj a ha)
                rw [hbridge]
                exact invocation_sequential c f bv.1 bv.2 mem halign
                  (hvm bv (List.mem_cons_self _ _)) hflen
              · have hS : ∀ op ∈ w, confined
                    (fun a => ∃ q ∈ invs, bufRegion c q.1 a) op := by
                  intro op hop
                  obtain ⟨t2, ht2, hop2⟩ := interleavingN_mem hN op hop
                  obtain ⟨q, hq, hgq⟩ := List.mem_map.mp ht2
                  rw [← hgq] at hop2
                  exact confined_mono (bufRegion c q.1) _ op
                    (fun a ha => ⟨q, hq, ha⟩)
                    (invocationOps_confined c f q.1 q.2 halign hflen
                      (hvm q (List.mem_cons_of_mem _ hq)) op hop2)
                have hheadOps : ∀ op ∈ invocationOps c f p.1 p.2,
                    ∀ (m : Memory) (a : Nat),
                    (∃ q ∈ invs, bufRegion c q.1 a) → op m a = m a := by
                  intro op hop m a ha
                  obtain ⟨q, hq, hRa⟩ := ha
                  have hconf := invocationOps_confined c f p.1 p.2 halign hflen
                    (hvm p (List.mem_cons_self _ _)) op hop
                  have hRp : ¬ bufRegion c p.1 a := by
                    have hd := hhead q hq
                    simp only [bufRegion] at hRa ⊢
                    omega
                  exact hconf.1 m a hRp
                have hproj := interleave_project
                  (fun a => ∃ q ∈ invs, bufRegion c q.1 a)
                  (interleaving_symm hI) hS hheadOps mem
                have hbridge := readInvocationResult_congr c (runOps zs mem)
                  (runOps w mem) bv.1
                  (fun a ha => hproj a ⟨bv, hbv2, ha⟩)
                rw [hbridge]
                exact ih w mem hN htail
                  (fun q hq => hvm q (List.mem_cons_of_mem _ hq)) bv hbv2

/-- C9: a single Caller supports any number of concurrent invocations of
its one compiled thunk, free of cross-contamination if and only if each
invocation uses its own InvocationBuffer: for every finite list of
concurrent invocations on pairwise-disjoint buffers, every interleaving
of all their atomic phases yields each invocation the result of its own
arguments; while two invocations sharing one buffer race on the
argument/return fields — some interleaving makes an invocation observe
the other's result. -/
theorem concurrentInvocations_ownBuffers (c : Caller)
    (f : List (List Nat) → List Nat) (mem : Memory) (base : Nat)
    (invs : List (Nat × List (List Nat))) (vs1 vs2 : List (List Nat))
    (hpair : List.Pairwise (fun p q =>
      p.1 + (callerLayout c).totalSize ≤ q.1 ∨
      q.1 + (callerLayout c).totalSize ≤ p.1) invs)
    (hvm : ∀ bv ∈ invs, valuesMatch bv.2 (callerLayout c).paramFields = true)
    (hm1 : valuesMatch vs1 (callerLayout c).paramFields = true)
    (hm2 : valuesMatch vs2 (callerLayout c).paramFields = true)
    (hflen : ∀ args, (f args).length = (callerLayout c).returnField.size)
    (halign : ∀ d ∈ c.sig.paramDescs, 0 < d.alignment)
    (hdiff : f vs2 ≠ f vs1) :
    (∀ zs, InterleavingN
        (invs.map (fun bv => invocationOps c f bv.1 bv.2)) zs →
      ∀ bv ∈ invs, readInvocationResult c (runOps zs mem) bv.1 = f bv.2) ∧
    (∃ zs, Interleaving (invocationOps c f base vs1)
        (invocationOps c f base vs2) zs ∧
      readInvocationResult c (runOps zs mem) base ≠ f vs1) := by
  constructor
  · intro zs hz bv hbv
    exact interleavingN_result c f hflen halign invs zs mem hz hpair hvm bv hbv
  · refine ⟨_, Interleaving.left (Interleaving.right (Interleaving.left
      (Interleaving.right Interleaving.nil))), ?_⟩
    have key : ∀ m : Memory,
        ((callerLayout c).paramFields.map
          (fun fld => readBytes m (base + fld.offset) fld.size)) = vs2 →
        readInvocationResult c
          (writeBytes m (base + (callerLayout c).returnField.offset)
            (f ((callerLayout c).paramFields.map
              (fun fld => readBytes m (base + fld.offset) fld.size)))) base =
          f vs2 := by
      intro m hargs
      rw [hargs]
      unfold readInvocationResult
      rw [← hflen vs2]
      exact readBytes_writeBytes_same _ _ _
    have hargs2 := readArgs_after_writeFields c base vs2
      (writeFields base (callerLayout c).paramFields vs1 mem) halign hm2
    have h2 := (readArgs_after_retWrite c base
        (writeFields base (callerLayout c).paramFields vs2
          (writeFields base (callerLayout c).paramFields vs1 mem))
        (f ((callerLayout c).paramFields.map
          (fun fld => readBytes
            (writeFields base (callerLayout c).paramFields vs2
              (writeFields base (callerLayout c).paramFields vs1 mem))
            (base + fld.offset) fld.size)))
        halign).trans hargs2
    have hres := key _ h2
    intro hcontra
    exact hdiff (hres.symm.trans hcontra)

/-- Witness for C9: three concurrent invocations of the one-byte
signature `caller1` with target behaviour `f0` on pairwise-disjoint
buffers at 1000, 1010 and 1020, and two invocations sharing a buffer at
2000, with differing argument values. -/
theorem concurrentInvocations_ownBuffers_witness :
    List.Pairwise (fun p q =>
      p.1 + (callerLayout caller1).totalSize ≤ q.1 ∨
      q.1 + (callerLayout caller1).totalSize ≤ p.1)
      ([(1000, [[3]]), (1010, [[5]]), (1020, [[7]])] :
        List (Nat × List (List Nat))) ∧
    f0 [[5]] ≠ f0 [[3]] ∧
    ((∀ zs, InterleavingN
        (([(1000, [[3]]), (1010, [[5]]), (1020, [[7]])] :
            List (Nat × List (List Nat))).map
          (fun bv => invocationOps caller1 f0 bv.1 bv.2)) zs →
      ∀ bv ∈ ([(1000, [[3]]), (1010, [[5]]), (1020, [[7]])] :
          List (Nat × List (List Nat))),
        readInvocationResult caller1 (runOps zs mem0) bv.1 = f0 bv.2) ∧
    (∃ zs, Interleaving (invocationOps caller1 f0 2000 [[3]])
        (invocationOps caller1 f0 2000 [[5]]) zs ∧
      readInvocationResult caller1 (runOps zs mem0) 2000 ≠ f0 [[3]])) :=
  ⟨by decide, by decide,
    concurrentInvocations_ownBuffers caller1 f0 mem0 2000
      [(1000, [[3]]), (1010, [[5]]), (1020, [[7]])] [[3]] [[5]]
      (by decide) (by decide) (by decide) (by decide) (fun _ => rfl)
      (by decide) (by decide)⟩

/-- C10: the type-system helper's DeclMap accessor returns NULL for
every helper at every point in its lifetime: the wrapper-expression
parser is self-contained and never resolves external values through a
declaration map. -/
theorem declMap_always_null (h : ClangFunctionCallerHelper) :
    h.DeclMap = none := rfl

/-- Witness for C10: the helper owned by the sample Caller. -/
theorem declMap_always_null_witness :
    (ClangFunctionCallerHelper.mk caller0).DeclMap = none :=
  declMap_always_null (ClangFunctionCallerHelper.mk caller0)

end FunctionCallerModel
